import Mathlib

/-!
Verification development for `src/sero_interview_task.py`.

The analysed component is the cumulative-contribution selector
`property_focus_feature_analysis`, together with the derived-column helpers
`get_potential_energy_efficiency_difference`, `get_potential_cost_saved` and
`get_co2_emissions_potential_difference`.

Numeric values carried by the pandas columns are modelled by `PVal`: either a
finite rational (`PVal.fin q`, an idealised finite float) or `PVal.nan`, the
non-finite / missing value NaN.  The comparison and arithmetic operations on
`PVal` mirror Python float semantics: NaN is absorbing under `+` and every
ordering comparison involving NaN is `False`.
-/

/-- A float-like value of a metric column: a finite rational, or NaN. -/
inductive PVal where
  | fin : ℚ → PVal
  | nan : PVal
  deriving DecidableEq

/-- Python float addition, as iterated by `np.cumsum`: NaN is absorbing. -/
def pvAdd : PVal → PVal → PVal
  | .fin a, .fin b => .fin (a + b)
  | _, _ => .nan

/-- Python float `<`: any comparison involving NaN evaluates to `False`. -/
def pvLT : PVal → PVal → Bool
  | .fin a, .fin b => decide (a < b)
  | _, _ => false

/-- Python float `>`: any comparison involving NaN evaluates to `False`.
Used by the builtin `max` scan. -/
def pvGT : PVal → PVal → Bool
  | .fin a, .fin b => decide (b < a)
  | _, _ => false

/-- Multiplying a column value by the finite scalar `percent_line`
(`max(np.cumsum(...)) * percent_line`). -/
def pvMulQ : PVal → ℚ → PVal
  | .fin a, t => .fin (a * t)
  | .nan, _ => .nan

/-- The finite value carried by a `PVal` (0 for NaN; only used under
all-finite hypotheses). -/
def pvToQ : PVal → ℚ
  | .fin a => a
  | .nan => 0

/-- The ordering used by
`sort_values(by=feature_col, ascending=False)`: `keyLE a b` holds when a row
with metric `a` may be placed before a row with metric `b`, i.e. descending by
value with NaN placed last (`na_position` defaults to `'last'`).  Ties are
broken stably (original order preserved), the deterministic tie-break the spec
instructs the implementer to adopt (spec §4.1 step 1). -/
def keyLE : PVal → PVal → Bool
  | .fin a, .fin b => decide (b ≤ a)
  | .fin _, .nan => true
  | .nan, .fin _ => false
  | .nan, .nan => true

/-- One record of the `cleaned_epc_data` table as seen by the selector: its
index label `idx` (pandas row label, assumed unique) and the value of the
chosen `feature_col`.  The remaining columns of the row play no role in the
selector and are identified by the label. -/
structure Row where
  idx : Nat
  metric : PVal
  deriving DecidableEq

/-- `rowBefore a b`: row `a` may come before row `b` in the sorted order. -/
def rowBefore (a b : Row) : Prop := keyLE a.metric b.metric = true

instance : DecidableRel rowBefore := fun a b =>
  inferInstanceAs (Decidable (keyLE a.metric b.metric = true))

instance : IsTotal Row rowBefore := by
  constructor
  intro a b
  unfold rowBefore
  cases a.metric with
  | fin x =>
      cases b.metric with
      | fin y =>
          rcases le_total y x with h | h
          · exact Or.inl (by simp [keyLE, h])
          · exact Or.inr (by simp [keyLE, h])
      | nan => exact Or.inl (by simp [keyLE])
  | nan =>
      cases b.metric with
      | fin y => exact Or.inr (by simp [keyLE])
      | nan => exact Or.inl (by simp [keyLE])

instance : IsTrans Row rowBefore := by
  constructor
  intro a b c hab hbc
  unfold rowBefore at *
  cases ha : a.metric <;> cases hb : b.metric <;> cases hc : c.metric <;>
    simp [keyLE, ha, hb, hc] at * <;> linarith

/-- Line 284 of the source:
`feature_data = cleaned_epc_data[[address_col, feature_col]].sort_values(by=feature_col, ascending=False)` —
the table ordered largest-to-smallest by the feature column (NaN last,
stable tie-break). -/
def feature_data (data : List Row) : List Row := List.insertionSort rowBefore data

/-- Running sums starting from accumulator `acc`. -/
def cumsumFrom (acc : PVal) : List PVal → List PVal
  | [] => []
  | v :: rest => pvAdd acc v :: cumsumFrom (pvAdd acc v) rest

/-- `np.cumsum`: the running cumulative sums of a value list. -/
def cumsum (l : List PVal) : List PVal := cumsumFrom (.fin 0) l

/-- `np.cumsum(feature_data[feature_col])`: cumulative sums of the chosen
feature over the sorted table (lines 294, 305, 322, 336). -/
def cumulative (data : List Row) : List PVal := cumsum ((feature_data data).map Row.metric)

/-- The Python builtin `max` over the cumulative series: a left-to-right scan
keeping the current element whenever `item > current` holds (so NaN entries
never replace a finite current maximum).  `none` models the `ValueError`
raised on an empty sequence. -/
def pymax : List PVal → Option PVal
  | [] => none
  | v :: rest => some (rest.foldl (fun cur y => if pvGT y cur then y else cur) v)

/-- `max(np.cumsum(feature_data[feature_col])) * percent_line`: the reference
value drawn as the horizontal line (line 305) and used as the selection
cutoff (lines 322, 336). -/
def cutoffValue (data : List Row) (percent_line : ℚ) : Option PVal :=
  (pymax (cumulative data)).map (fun m => pvMulQ m percent_line)

/-- The index labels, in sorted order, at which the boolean mask
`np.cumsum(feature_data[feature_col]) < max(np.cumsum(...)) * percent_line`
is `True`.  The mask is a pandas Series indexed by `feature_data`'s labels;
these labels are what `.loc` then selects from the original table. -/
def selectedIdxs (data : List Row) (percent_line : ℚ) : List Nat :=
  match cutoffValue data percent_line with
  | none => []
  | some cut =>
      ((feature_data data).zip (cumulative data)).filterMap
        (fun p => if pvLT p.2 cut then some p.1.idx else none)

/-- The values the selector computes for the caller: `focus` is the returned
`focus_properties_df` (line 336), `percent_of_total` the percentage computed
at lines 322-323, and `cutoffLine` the reference value of line 305. -/
structure FocusResult where
  focus : List Row
  percent_of_total : ℚ
  cutoffLine : PVal
  deriving DecidableEq

/-- Lines 276-338 of the source, `property_focus_feature_analysis`.
`none` models the unhandled `ValueError` that `max()` raises on an empty
cumulative series (first reached at line 305); otherwise:
* `mask` is the boolean Series `np.cumsum(...) < max(np.cumsum(...)) * percent_line`,
* `percent_of_total = (sum(mask) / len(mask)) * 100` (lines 322-323),
* `focus_properties_df = cleaned_epc_data.loc[mask]` (line 336): the boolean
  Series is aligned to the original table by its index labels, so the selected
  rows are returned in the original table order. -/
def property_focus_feature_analysis (data : List Row) (percent_line : ℚ) :
    Option FocusResult :=
  match cutoffValue data percent_line with
  | none => none
  | some cut =>
      let mask : List Bool := (cumulative data).map (fun c => pvLT c cut)
      let percent_of_total : ℚ := ((mask.count true : ℚ) / (mask.length : ℚ)) * 100
      let focus_properties_df : List Row :=
        data.filter (fun r => decide (r.idx ∈ selectedIdxs data percent_line))
      some ⟨focus_properties_df, percent_of_total, cut⟩

/-- Modelled from the spec (§8 "Sorted order"): the "excluded remainder" —
the rows of the table not selected into the Focus Subset, in table order.
The source never materialises this complement; it is needed to state the
reconstruction property. -/
def excludedRemainder (data : List Row) (percent_line : ℚ) : List Row :=
  data.filter (fun r => !(decide (r.idx ∈ selectedIdxs data percent_line)))

/-- Modelled from the spec (§4.1 step 2): `total = sum(metric over all
records)`.  The source never computes this quantity; it uses
`max(np.cumsum(...))` instead. -/
def totalMetric (data : List Row) : PVal :=
  data.foldl (fun acc r => pvAdd acc r.metric) (.fin 0)

/-- Modelled from the spec (§4.1 step 5): the Focus Subset as the spec words
it — "the maximal prefix of the sorted order such that `C[i] < cutoff` for
every included index `i`" (with the code's cutoff value). -/
def specFocusSubset (data : List Row) (percent_line : ℚ) : List Row :=
  match cutoffValue data percent_line with
  | none => []
  | some cut =>
      (((feature_data data).zip (cumulative data)).takeWhile
        (fun p => pvLT p.2 cut)).map Prod.fst

/-- Every value of the list is a finite, nonnegative number. -/
def AllFinNonneg (l : List PVal) : Prop := ∀ v ∈ l, ∃ q : ℚ, v = .fin q ∧ 0 ≤ q

/-- A row list is ordered descending by metric (spec §8 "Sorted order"),
i.e. consecutive rows are in `sort_values(ascending=False)` order. -/
def DescendingByMetric (l : List Row) : Prop := List.Pairwise rowBefore l

/-- The observable effects of one selector call outside its return value:
matplotlib figures created, files written under `Results/`, lines printed to
stdout.  Used to state purity of the returned result. -/
structure World where
  figures : Nat
  files : List String
  stdout : List String
  deriving DecidableEq

/-- One invocation of `property_focus_feature_analysis` together with its
side effects: it always creates a figure (lines 290-316); with `save=True` it
writes the plot and the suggestion text under `Results/` (lines 314-330),
otherwise it prints the conclusion string (line 332).  The returned result is
computed from the arguments alone. -/
def runAnalysis (data : List Row) (percent_line : ℚ) (save : Bool) (w : World) :
    Option FocusResult × World :=
  let res := property_focus_feature_analysis data percent_line
  let w1 : World := ⟨w.figures + 1, w.files, w.stdout⟩
  let w2 : World :=
    if save then
      ⟨w1.figures, w1.files ++ ["Results/Cumulative Feature Plot", "Results/Suggestion.txt"], w1.stdout⟩
    else
      ⟨w1.figures, w1.files, w1.stdout ++ ["conclusion_string"]⟩
  (res, w2)

/-- One row of `cleaned_epc_data` as seen by the feature-engineering
functions: the paired current/potential numeric columns. -/
structure EpcRow where
  current_energy_efficiency : ℚ
  potential_energy_efficiency : ℚ
  co2_emissions_current : ℚ
  co2_emissions_potential : ℚ
  hot_water_cost_current : ℚ
  hot_water_cost_potential : ℚ
  heating_cost_current : ℚ
  heating_cost_potential : ℚ
  lighting_cost_current : ℚ
  lighting_cost_potential : ℚ
  deriving DecidableEq

/-- Line 130 of the source: the derived column
`potential_energy_efficiency_difference = abs(potential_energy_efficiency - current_energy_efficiency)`,
computed row-wise over the table. -/
def get_potential_energy_efficiency_difference (df : List EpcRow) : List ℚ :=
  df.map (fun r => |r.potential_energy_efficiency - r.current_energy_efficiency|)

/-- Lines 149-153 of the source: the derived column `potential_cost_saved`,
the Python `sum` of the three pairwise current-minus-potential cost
differences, computed row-wise. -/
def get_potential_cost_saved (df : List EpcRow) : List ℚ :=
  df.map (fun r =>
    (r.hot_water_cost_current - r.hot_water_cost_potential) +
      (r.heating_cost_current - r.heating_cost_potential) +
      (r.lighting_cost_current - r.lighting_cost_potential))

/-- Lines 171-172 of the source: the derived column
`co2_emissions_potential_difference = co2_emissions_current - co2_emissions_potential`,
computed row-wise. -/
def get_co2_emissions_potential_difference (df : List EpcRow) : List ℚ :=
  df.map (fun r => r.co2_emissions_current - r.co2_emissions_potential)

/-! ### Basic structural facts -/

theorem cumsumFrom_length (l : List PVal) : ∀ acc, (cumsumFrom acc l).length = l.length := by
  induction l with
  | nil => intro acc; rfl
  | cons v rest ih => intro acc; simp [cumsumFrom, ih]

theorem feature_data_perm (data : List Row) : (feature_data data).Perm data :=
  List.perm_insertionSort rowBefore data

theorem cumulative_length (data : List Row) : (cumulative data).length = data.length := by
  unfold cumulative cumsum
  rw [cumsumFrom_length, List.length_map, (feature_data_perm data).length_eq]

theorem allFinNonneg_sorted {data : List Row} (h : AllFinNonneg (data.map Row.metric)) :
    AllFinNonneg ((feature_data data).map Row.metric) := fun v hv =>
  h v (((feature_data_perm data).map Row.metric).mem_iff.mp hv)

/-- Every cumulative sum of finite nonnegative values starting at `a` is a
finite value at least `a`. -/
theorem cumsumFrom_lb {ms : List PVal} (h : AllFinNonneg ms) :
    ∀ a : ℚ, ∀ c ∈ cumsumFrom (.fin a) ms, ∃ q : ℚ, c = .fin q ∧ a ≤ q := by
  induction ms with
  | nil => intro a c hc; simp [cumsumFrom] at hc
  | cons v rest ih =>
      intro a c hc
      obtain ⟨qv, hqv, hqv0⟩ := h v (List.mem_cons_self v rest)
      have hrest : AllFinNonneg rest := fun x hx => h x (List.mem_cons_of_mem _ hx)
      subst hqv
      simp only [cumsumFrom, pvAdd, List.mem_cons] at hc
      rcases hc with hc | hc
      · exact ⟨a + qv, hc, by linarith⟩
      · obtain ⟨q, hq, hle⟩ := ih hrest (a + qv) c hc
        exact ⟨q, hq, by linarith⟩

/-- The builtin-`max` scan over the cumulative sums of finite nonnegative
values ends at the final cumulative value, i.e. the total. -/
theorem foldmax_cumsum {ms : List PVal} (h : AllFinNonneg ms) :
    ∀ a : ℚ, (cumsumFrom (.fin a) ms).foldl (fun cur y => if pvGT y cur then y else cur) (.fin a)
      = .fin (a + (ms.map pvToQ).sum) := by
  induction ms with
  | nil => intro a; simp [cumsumFrom]
  | cons v rest ih =>
      intro a
      obtain ⟨qv, hqv, hqv0⟩ := h v (List.mem_cons_self v rest)
      have hrest : AllFinNonneg rest := fun x hx => h x (List.mem_cons_of_mem _ hx)
      subst hqv
      have step : (if pvGT (.fin (a + qv)) (.fin a) then (PVal.fin (a + qv)) else .fin a)
          = .fin (a + qv) := by
        by_cases hq : 0 < qv
        · have hlt : a < a + qv := by linarith
          simp [pvGT, hlt]
        · have hq0 : qv = 0 := le_antisymm (not_lt.mp hq) hqv0
          subst hq0
          simp [pvGT]
      simp only [cumsumFrom, pvAdd, List.foldl_cons, List.map_cons, List.sum_cons]
      rw [step, ih hrest (a + qv)]
      have hp : pvToQ (.fin qv) = qv := rfl
      rw [hp, add_assoc]

theorem pymax_cumsum {ms : List PVal} (hne : ms ≠ []) (h : AllFinNonneg ms) :
    pymax (cumsum ms) = some (.fin ((ms.map pvToQ).sum)) := by
  obtain ⟨v, rest, rfl⟩ := List.exists_cons_of_ne_nil hne
  obtain ⟨qv, hqv, hqv0⟩ := h v (List.mem_cons_self v rest)
  have hrest : AllFinNonneg rest := fun x hx => h x (List.mem_cons_of_mem _ hx)
  subst hqv
  simp only [cumsum, cumsumFrom, pvAdd, pymax, List.map_cons, List.sum_cons]
  rw [foldmax_cumsum hrest (0 + qv)]
  have hp : pvToQ (.fin qv) = qv := rfl
  rw [hp, zero_add]

theorem totalFrom_fin (l : List Row) :
    ∀ a : ℚ, (∀ r ∈ l, ∃ q : ℚ, r.metric = .fin q) →
      l.foldl (fun acc r => pvAdd acc r.metric) (.fin a)
        = .fin (a + ((l.map Row.metric).map pvToQ).sum) := by
  induction l with
  | nil => intro a _; simp
  | cons r rest ih =>
      intro a h
      obtain ⟨q, hq⟩ := h r (List.mem_cons_self r rest)
      have hrest : ∀ x ∈ rest, ∃ qx : ℚ, x.metric = .fin qx :=
        fun x hx => h x (List.mem_cons_of_mem _ hx)
      simp only [List.foldl_cons, hq, List.map_cons, List.sum_cons]
      have hinit : pvAdd (.fin a) (.fin q) = .fin (a + q) := rfl
      rw [hinit, ih (a + q) hrest]
      have hp : pvToQ (.fin q) = q := rfl
      rw [hp, add_assoc]

theorem totalMetric_fin {data : List Row} (h : AllFinNonneg (data.map Row.metric)) :
    totalMetric data = .fin (((data.map Row.metric).map pvToQ).sum) := by
  unfold totalMetric
  rw [totalFrom_fin data 0 (fun r hr => by
    obtain ⟨q, hq, _⟩ := h r.metric (List.mem_map_of_mem Row.metric hr)
    exact ⟨q, hq⟩)]
  norm_num

theorem sorted_metrics_ne_nil {data : List Row} (hne : data ≠ []) :
    (feature_data data).map Row.metric ≠ [] := by
  intro hbad
  have hlen := congrArg List.length hbad
  rw [List.length_map, (feature_data_perm data).length_eq] at hlen
  exact hne (List.length_eq_zero.mp hlen)

theorem cutoffValue_sorted_sum {data : List Row} (hne : data ≠ [])
    (h : AllFinNonneg (data.map Row.metric)) (t : ℚ) :
    cutoffValue data t
      = some (.fin (((((feature_data data).map Row.metric).map pvToQ).sum) * t)) := by
  unfold cutoffValue cumulative
  rw [pymax_cumsum (sorted_metrics_ne_nil hne) (allFinNonneg_sorted h)]
  simp [pvMulQ]

/-- Under finite nonnegative metrics the sorted cumulative maximum is the
portfolio total, so the cutoff equals `threshold_fraction` times the total. -/
theorem cutoffValue_eq_total {data : List Row} (hne : data ≠ [])
    (h : AllFinNonneg (data.map Row.metric)) (t : ℚ) :
    cutoffValue data t = some (pvMulQ (totalMetric data) t) := by
  rw [cutoffValue_sorted_sum hne h t, totalMetric_fin h]
  have hperm : (((feature_data data).map Row.metric).map pvToQ).Perm
      (((data.map Row.metric)).map pvToQ) := ((feature_data_perm data).map Row.metric).map pvToQ
  rw [hperm.sum_eq]
  simp [pvMulQ]

theorem cutoffValue_isSome {data : List Row} (hne : data ≠ []) (t : ℚ) :
    ∃ cut, cutoffValue data t = some cut := by
  have hlen : (cumulative data).length = data.length := cumulative_length data
  have hcne : cumulative data ≠ [] := by
    intro hbad
    rw [hbad] at hlen
    exact hne (List.length_eq_zero.mp hlen.symm)
  obtain ⟨c, cs, hcs⟩ := List.exists_cons_of_ne_nil hcne
  unfold cutoffValue
  rw [hcs]
  exact ⟨_, rfl⟩

theorem pffa_eq_of_cutoff {data : List Row} {t : ℚ} {cut : PVal}
    (hcut : cutoffValue data t = some cut) :
    property_focus_feature_analysis data t = some
      ⟨data.filter (fun r => decide (r.idx ∈ selectedIdxs data t)),
        ((((cumulative data).map (fun c => pvLT c cut)).count true : ℚ) /
          (((cumulative data).map (fun c => pvLT c cut)).length : ℚ)) * 100,
        cut⟩ := by
  unfold property_focus_feature_analysis
  rw [hcut]

/-! ### The selection as a prefix of the sorted order (nonnegative metrics) -/

theorem sel_nil_of_le {rows : List Row} (h : AllFinNonneg (rows.map Row.metric))
    {a qc : ℚ} (hle : qc ≤ a) :
    (rows.zip (cumsumFrom (.fin a) (rows.map Row.metric))).filterMap
      (fun p => if pvLT p.2 (.fin qc) then some p.1.idx else none) = [] := by
  rw [List.filterMap_eq_nil_iff]
  intro p hp
  obtain ⟨r, c⟩ := p
  obtain ⟨q, hq, hge⟩ := cumsumFrom_lb h a c (List.of_mem_zip hp).2
  have hnot : ¬ (q < qc) := by linarith
  rw [hq]
  simp [pvLT, hnot]

theorem sel_take (rows : List Row) :
    ∀ (a qc : ℚ), AllFinNonneg (rows.map Row.metric) →
      ∃ k : Nat,
        (rows.zip (cumsumFrom (.fin a) (rows.map Row.metric))).filterMap
          (fun p => if pvLT p.2 (.fin qc) then some p.1.idx else none)
        = (rows.take k).map Row.idx := by
  induction rows with
  | nil => intro a qc _; exact ⟨0, rfl⟩
  | cons r rest ih =>
      intro a qc h
      obtain ⟨qm, hm, hm0⟩ := h r.metric (by simp)
      have hrest : AllFinNonneg (rest.map Row.metric) := by
        intro v hv
        exact h v (by simp [hv])
      by_cases hlt : a + qm < qc
      · obtain ⟨k, hk⟩ := ih (a + qm) qc hrest
        refine ⟨k + 1, ?_⟩
        simp only [List.map_cons, hm, cumsumFrom, List.zip_cons_cons, List.filterMap_cons]
        have hadd : pvAdd (.fin a) (.fin qm) = .fin (a + qm) := rfl
        rw [hadd]
        have hT : pvLT (.fin (a + qm)) (.fin qc) = true := by simp [pvLT, hlt]
        rw [hT, hk]
        simp [List.take_succ_cons]
      · refine ⟨0, ?_⟩
        simp only [List.map_cons, hm, cumsumFrom, List.zip_cons_cons, List.filterMap_cons]
        have hadd : pvAdd (.fin a) (.fin qm) = .fin (a + qm) := rfl
        rw [hadd]
        have hF : pvLT (.fin (a + qm)) (.fin qc) = false := by
          simp only [pvLT, decide_eq_false_iff_not]
          exact hlt
        rw [hF]
        simp only [Bool.false_eq_true, if_false]
        rw [sel_nil_of_le hrest (not_lt.mp hlt)]
        simp

theorem sel_eq_takeWhile (rows : List Row) :
    ∀ (a qc : ℚ), AllFinNonneg (rows.map Row.metric) →
      (rows.zip (cumsumFrom (.fin a) (rows.map Row.metric))).filterMap
        (fun p => if pvLT p.2 (.fin qc) then some p.1.idx else none)
      = ((rows.zip (cumsumFrom (.fin a) (rows.map Row.metric))).takeWhile
          (fun p => pvLT p.2 (.fin qc))).map (fun p => p.1.idx) := by
  induction rows with
  | nil => intro a qc _; rfl
  | cons r rest ih =>
      intro a qc h
      obtain ⟨qm, hm, hm0⟩ := h r.metric (by simp)
      have hrest : AllFinNonneg (rest.map Row.metric) := by
        intro v hv
        exact h v (by simp [hv])
      simp only [List.map_cons, hm, cumsumFrom, List.zip_cons_cons, List.filterMap_cons,
        List.takeWhile_cons]
      have hadd : pvAdd (.fin a) (.fin qm) = .fin (a + qm) := rfl
      rw [hadd]
      by_cases hlt : a + qm < qc
      · have hT : pvLT (.fin (a + qm)) (.fin qc) = true := by simp [pvLT, hlt]
        rw [hT, ih (a + qm) qc hrest]
        simp
      · have hF : pvLT (.fin (a + qm)) (.fin qc) = false := by
          simp only [pvLT, decide_eq_false_iff_not]
          exact hlt
        rw [hF]
        simp only [Bool.false_eq_true, if_false]
        rw [sel_nil_of_le hrest (not_lt.mp hlt)]
        simp

theorem selectedIdxs_take {data : List Row} (hne : data ≠ [])
    (h : AllFinNonneg (data.map Row.metric)) (t : ℚ) :
    ∃ k, selectedIdxs data t = ((feature_data data).take k).map Row.idx := by
  have hc := cutoffValue_sorted_sum hne h t
  simp only [selectedIdxs, hc]
  exact sel_take (feature_data data) 0
    ((((feature_data data).map Row.metric).map pvToQ).sum * t) (allFinNonneg_sorted h)

theorem selectedIdxs_eq_spec_aux {data : List Row} {t qc : ℚ}
    (hcut : cutoffValue data t = some (.fin qc))
    (h : AllFinNonneg (data.map Row.metric)) :
    selectedIdxs data t = (specFocusSubset data t).map Row.idx := by
  simp only [selectedIdxs, specFocusSubset, hcut]
  rw [List.map_map]
  exact sel_eq_takeWhile (feature_data data) 0 qc (allFinNonneg_sorted h)

theorem selectedIdxs_eq_spec {data : List Row} (hne : data ≠ [])
    (h : AllFinNonneg (data.map Row.metric)) (t : ℚ) :
    selectedIdxs data t = (specFocusSubset data t).map Row.idx :=
  selectedIdxs_eq_spec_aux (cutoffValue_sorted_sum hne h t) h

theorem spec_mem_sorted {data : List Row} {t : ℚ} {p : Row}
    (hp : p ∈ specFocusSubset data t) : p ∈ feature_data data := by
  unfold specFocusSubset at hp
  cases hcut : cutoffValue data t with
  | none => rw [hcut] at hp; simp at hp
  | some cut =>
      rw [hcut] at hp
      simp only [List.mem_map] at hp
      obtain ⟨pr, hpr, rfl⟩ := hp
      have hzip : pr ∈ (feature_data data).zip (cumulative data) :=
        (List.takeWhile_sublist _).subset hpr
      obtain ⟨r, c⟩ := pr
      exact (List.of_mem_zip hzip).1

theorem mem_focus_iff {data : List Row} {t : ℚ} (hne : data ≠ [])
    (h : AllFinNonneg (data.map Row.metric)) (hnd : (data.map Row.idx).Nodup) (r : Row) :
    (r ∈ data.filter (fun x => decide (x.idx ∈ selectedIdxs data t)) ↔
      r ∈ specFocusSubset data t) := by
  rw [List.mem_filter, selectedIdxs_eq_spec hne h t]
  constructor
  · rintro ⟨hrd, hmem⟩
    rw [decide_eq_true_eq, List.mem_map] at hmem
    obtain ⟨p, hp, hpidx⟩ := hmem
    have hpd : p ∈ data := (feature_data_perm data).mem_iff.mp (spec_mem_sorted hp)
    have : p = r := List.inj_on_of_nodup_map hnd hpd hrd hpidx
    exact this ▸ hp
  · intro hr
    have hrd : r ∈ data := (feature_data_perm data).mem_iff.mp (spec_mem_sorted hr)
    refine ⟨hrd, ?_⟩
    rw [decide_eq_true_eq, List.mem_map]
    exact ⟨r, hr, rfl⟩

/-! ### Counting the selection -/

theorem sel_filterMap_length {cut : PVal} :
    ∀ l : List (Row × PVal),
      (l.filterMap (fun p => if pvLT p.2 cut then some p.1.idx else none)).length
        = l.countP (fun p => pvLT p.2 cut) := by
  intro l
  induction l with
  | nil => rfl
  | cons a l ih =>
      by_cases hp : pvLT a.2 cut = true <;>
        simp [List.filterMap_cons, hp, List.countP_cons, ih]

theorem sel_filterMap_sublist {cut : PVal} :
    ∀ l : List (Row × PVal),
      (l.filterMap (fun p => if pvLT p.2 cut then some p.1.idx else none)).Sublist
        (l.map (fun p => p.1.idx)) := by
  intro l
  induction l with
  | nil => simp
  | cons a l ih =>
      cases hp : pvLT a.2 cut with
      | true =>
          simp only [List.filterMap_cons, hp, if_true, List.map_cons]
          exact (List.cons_sublist_cons).mpr ih
      | false =>
          simp only [List.filterMap_cons, hp, Bool.false_eq_true, if_false, List.map_cons]
          exact ih.trans (List.sublist_cons_self _ _)

theorem countP_zip_snd {α β : Type} (P : β → Bool) :
    ∀ (l1 : List α) (l2 : List β), l1.length = l2.length →
      (l1.zip l2).countP (fun p => P p.2) = l2.countP P := by
  intro l1
  induction l1 with
  | nil =>
      intro l2 h
      cases l2 with
      | nil => rfl
      | cons b bs => simp at h
  | cons a l ih =>
      intro l2 h
      cases l2 with
      | nil => simp at h
      | cons b bs =>
          simp only [List.zip_cons_cons, List.countP_cons]
          rw [ih bs (by simpa using h)]

theorem count_true_map {α : Type} (f : α → Bool) (l : List α) :
    (l.map f).count true = l.countP f := by
  rw [List.count_eq_countP, List.countP_map]
  apply List.countP_congr
  intro x _
  simp [Function.comp]

theorem zip_map_fst_idx (data : List Row) :
    ((feature_data data).zip (cumulative data)).map (fun p => p.1.idx)
      = (feature_data data).map Row.idx := by
  have hle : (feature_data data).length ≤ (cumulative data).length := by
    rw [cumulative_length, (feature_data_perm data).length_eq]
  conv_rhs => rw [← List.map_fst_zip (feature_data data) (cumulative data) hle]
  rw [List.map_map]
  exact List.map_congr_left (fun p _ => rfl)

theorem selectedIdxs_length {data : List Row} {t : ℚ} {cut : PVal}
    (hcut : cutoffValue data t = some cut) :
    (selectedIdxs data t).length
      = ((cumulative data).map (fun c => pvLT c cut)).count true := by
  simp only [selectedIdxs, hcut]
  rw [sel_filterMap_length, count_true_map]
  exact countP_zip_snd (fun c => pvLT c cut) (feature_data data) (cumulative data)
    (by rw [cumulative_length, (feature_data_perm data).length_eq])

theorem selectedIdxs_nodup {data : List Row} (hnd : (data.map Row.idx).Nodup) (t : ℚ) :
    (selectedIdxs data t).Nodup := by
  unfold selectedIdxs
  cases hcut : cutoffValue data t with
  | none => simp
  | some cut =>
      have hsub := @sel_filterMap_sublist cut ((feature_data data).zip (cumulative data))
      rw [zip_map_fst_idx data] at hsub
      exact hsub.nodup (((feature_data_perm data).map Row.idx).nodup_iff.mpr hnd)

theorem selectedIdxs_subset {data : List Row} (t : ℚ) :
    ∀ i ∈ selectedIdxs data t, i ∈ data.map Row.idx := by
  intro i hi
  unfold selectedIdxs at hi
  cases hcut : cutoffValue data t with
  | none => rw [hcut] at hi; simp at hi
  | some cut =>
      rw [hcut] at hi
      have hsub := @sel_filterMap_sublist cut ((feature_data data).zip (cumulative data))
      rw [zip_map_fst_idx data] at hsub
      exact ((feature_data_perm data).map Row.idx).mem_iff.mp (hsub.subset hi)

/-- Selecting rows of a label-unique table by a duplicate-free list of labels
that all occur in the table yields exactly one row per label. -/
theorem filter_mem_length :
    ∀ (data : List Row) (S : List Nat), (data.map Row.idx).Nodup → S.Nodup →
      (∀ s ∈ S, s ∈ data.map Row.idx) →
      (data.filter (fun r => decide (r.idx ∈ S))).length = S.length := by
  intro data
  induction data with
  | nil =>
      intro S _ _ hsub
      have hS : S = [] := by
        rw [List.eq_nil_iff_forall_not_mem]
        intro s hs
        simpa using hsub s hs
      rw [hS]
      rfl
  | cons d rest ih =>
      intro S hnd hS hsub
      rw [List.map_cons, List.nodup_cons] at hnd
      obtain ⟨hdni, hndr⟩ := hnd
      by_cases hd : d.idx ∈ S
      · have hstep : List.filter (fun r => decide (r.idx ∈ S)) (d :: rest)
            = d :: List.filter (fun r => decide (r.idx ∈ S)) rest := by
          rw [List.filter_cons]
          simp [hd]
        rw [hstep]
        have hcong : ∀ r ∈ rest,
            (decide (r.idx ∈ S) : Bool) = decide (r.idx ∈ S.erase d.idx) := by
          intro r hr
          have hne2 : r.idx ≠ d.idx := fun heq => hdni (heq ▸ List.mem_map_of_mem Row.idx hr)
          exact decide_eq_decide.mpr (List.mem_erase_of_ne hne2).symm
        have hsub2 : ∀ s ∈ S.erase d.idx, s ∈ rest.map Row.idx := by
          intro s hs
          have hsS : s ∈ S := List.mem_of_mem_erase hs
          have hsd : s ≠ d.idx := ((List.Nodup.mem_erase_iff hS).mp hs).1
          have hin := hsub s hsS
          rw [List.map_cons, List.mem_cons] at hin
          rcases hin with h1 | h1
          · exact absurd h1 hsd
          · exact h1
        rw [List.filter_congr hcong, List.length_cons,
          ih (S.erase d.idx) hndr (hS.erase _) hsub2, List.length_erase_of_mem hd]
        have hpos : 0 < S.length := List.length_pos.mpr (List.ne_nil_of_mem hd)
        omega
      · have hstep : List.filter (fun r => decide (r.idx ∈ S)) (d :: rest)
            = List.filter (fun r => decide (r.idx ∈ S)) rest := by
          rw [List.filter_cons]
          simp [hd]
        rw [hstep]
        have hsub2 : ∀ s ∈ S, s ∈ rest.map Row.idx := by
          intro s hs
          have hin := hsub s hs
          rw [List.map_cons, List.mem_cons] at hin
          rcases hin with h1 | h1
          · exact absurd (h1 ▸ hs) hd
          · exact h1
        exact ih S hndr hS hsub2

/-- Selecting rows whose label lies among the first `k` labels of a
label-unique table yields exactly the first `k` rows. -/
theorem filter_take_idx :
    ∀ (data : List Row) (k : Nat), (data.map Row.idx).Nodup →
      data.filter (fun r => decide (r.idx ∈ (data.take k).map Row.idx)) = data.take k := by
  intro data
  induction data with
  | nil => intro k _; simp
  | cons d rest ih =>
      intro k hnd
      rw [List.map_cons, List.nodup_cons] at hnd
      obtain ⟨hdni, hndr⟩ := hnd
      cases k with
      | zero => simp
      | succ k =>
          simp only [List.take_succ_cons, List.map_cons]
          have hstep : List.filter
              (fun r => decide (r.idx ∈ d.idx :: (rest.take k).map Row.idx)) (d :: rest)
              = d :: List.filter
                  (fun r => decide (r.idx ∈ d.idx :: (rest.take k).map Row.idx)) rest := by
            rw [List.filter_cons]
            simp
          rw [hstep]
          congr 1
          have hcong : ∀ r ∈ rest,
              (decide (r.idx ∈ d.idx :: (rest.take k).map Row.idx) : Bool)
                = decide (r.idx ∈ (rest.take k).map Row.idx) := by
            intro r hr
            have hne2 : r.idx ≠ d.idx := fun heq => hdni (heq ▸ List.mem_map_of_mem Row.idx hr)
            exact decide_eq_decide.mpr (by simp [List.mem_cons, hne2])
          rw [List.filter_congr hcong]
          exact ih k hndr

/-- The complement selection yields exactly the remaining rows. -/
theorem filter_drop_idx :
    ∀ (data : List Row) (k : Nat), (data.map Row.idx).Nodup →
      data.filter (fun r => !(decide (r.idx ∈ (data.take k).map Row.idx))) = data.drop k := by
  intro data
  induction data with
  | nil => intro k _; simp
  | cons d rest ih =>
      intro k hnd
      rw [List.map_cons, List.nodup_cons] at hnd
      obtain ⟨hdni, hndr⟩ := hnd
      cases k with
      | zero => simp
      | succ k =>
          simp only [List.take_succ_cons, List.map_cons, List.drop_succ_cons]
          have hstep : List.filter
              (fun r => !(decide (r.idx ∈ d.idx :: (rest.take k).map Row.idx))) (d :: rest)
              = List.filter
                  (fun r => !(decide (r.idx ∈ d.idx :: (rest.take k).map Row.idx))) rest := by
            rw [List.filter_cons]
            simp
          rw [hstep]
          have hcong : ∀ r ∈ rest,
              (!(decide (r.idx ∈ d.idx :: (rest.take k).map Row.idx)) : Bool)
                = !(decide (r.idx ∈ (rest.take k).map Row.idx)) := by
            intro r hr
            have hne2 : r.idx ≠ d.idx := fun heq => hdni (heq ▸ List.mem_map_of_mem Row.idx hr)
            have : (decide (r.idx ∈ d.idx :: (rest.take k).map Row.idx) : Bool)
                = decide (r.idx ∈ (rest.take k).map Row.idx) :=
              decide_eq_decide.mpr (by simp [List.mem_cons, hne2])
            rw [this]
          rw [List.filter_congr hcong]
          exact ih k hndr

theorem sorted_sum_nonneg {data : List Row} (h : AllFinNonneg (data.map Row.metric)) :
    0 ≤ (((feature_data data).map Row.metric).map pvToQ).sum := by
  apply List.sum_nonneg
  intro x hx
  rw [List.mem_map] at hx
  obtain ⟨v, hv, rfl⟩ := hx
  obtain ⟨q, hq, hq0⟩ := allFinNonneg_sorted h v hv
  rw [hq]
  exact hq0

/-- A row index selected at the smaller threshold is also selected at the
larger one, provided the cumulative maximum is nonnegative. -/
theorem selectedIdxs_mono {data : List Row} {s t S : ℚ} (hS : 0 ≤ S) (hst : s ≤ t)
    (hcs : cutoffValue data s = some (.fin (S * s)))
    (hct : cutoffValue data t = some (.fin (S * t))) :
    ∀ i ∈ selectedIdxs data s, i ∈ selectedIdxs data t := by
  intro i hi
  simp only [selectedIdxs, hcs] at hi
  simp only [selectedIdxs, hct]
  rw [List.mem_filterMap] at hi ⊢
  obtain ⟨p, hp, hpi⟩ := hi
  refine ⟨p, hp, ?_⟩
  by_cases hb : pvLT p.2 (.fin (S * s)) = true
  · rw [if_pos hb] at hpi
    cases hc2 : p.2 with
    | nan => rw [hc2] at hb; simp [pvLT] at hb
    | fin q =>
        rw [hc2] at hb
        simp only [pvLT, decide_eq_true_eq] at hb
        have hq : q < S * t := lt_of_lt_of_le hb (mul_le_mul_of_nonneg_left hst hS)
        rw [if_pos (by simp [pvLT, hq])]
        exact hpi
  · rw [if_neg hb] at hpi
    exact absurd hpi (by simp)

/-! ### The claims -/

/-- Claim C1, corrected: the claim as stated fails for negative metrics (see
`C1_counterexample`).  Amended to collections of finite nonnegative metrics
with unique labels: the Focus Subset returned by
`property_focus_feature_analysis` consists exactly of the rows of the maximal
prefix of the metric-descending ordering whose cumulative sums are all
strictly below the cutoff (strict `<`); moreover the two boundary examples of
the claim hold exactly as stated: metrics `[50, 30, 20]` at threshold `1/2`
give an empty Focus Subset, and `[40, 30, 20]` at `1/2` give exactly the top
entity with metric `40`. -/
theorem C1_focus_subset_spec (data : List Row) (t : ℚ) (hne : data ≠ [])
    (hfin : AllFinNonneg (data.map Row.metric)) (hnd : (data.map Row.idx).Nodup) :
    (∃ res, property_focus_feature_analysis data t = some res ∧
        ∀ r : Row, (r ∈ res.focus ↔ r ∈ specFocusSubset data t)) ∧
      property_focus_feature_analysis [⟨0, .fin 50⟩, ⟨1, .fin 30⟩, ⟨2, .fin 20⟩] (1/2)
        = some ⟨[], 0, .fin 50⟩ ∧
      (property_focus_feature_analysis [⟨0, .fin 40⟩, ⟨1, .fin 30⟩, ⟨2, .fin 20⟩] (1/2)).map
        FocusResult.focus = some [⟨0, .fin 40⟩] := by
  refine ⟨?_, ?_, ?_⟩
  · obtain ⟨cut, hcut⟩ := cutoffValue_isSome hne t
    exact ⟨_, pffa_eq_of_cutoff hcut, fun r => mem_focus_iff hne hfin hnd r⟩
  · norm_num [property_focus_feature_analysis, cutoffValue, cumulative, feature_data,
      List.insertionSort, List.orderedInsert, cumsum, cumsumFrom, pvAdd, pvGT, pvLT, pvMulQ,
      selectedIdxs, keyLE, rowBefore, pymax, Option.map, List.count, List.countP,
      List.countP.go]
  · norm_num [property_focus_feature_analysis, cutoffValue, cumulative, feature_data,
      List.insertionSort, List.orderedInsert, cumsum, cumsumFrom, pvAdd, pvGT, pvLT, pvMulQ,
      selectedIdxs, keyLE, rowBefore, pymax, Option.map, List.count, List.countP,
      List.countP.go]

/-- Claim C1, counterexample to the original statement: for the finite metrics
`[5, -4, 2]` and threshold `3/5` the code returns the single row with metric
`-4` — not a prefix of the descending order at all — while the spec's maximal
strict prefix is empty. -/
theorem C1_counterexample :
    (property_focus_feature_analysis [⟨0, .fin 5⟩, ⟨1, .fin (-4)⟩, ⟨2, .fin 2⟩] (3/5)).map
        FocusResult.focus = some [⟨1, .fin (-4)⟩] ∧
      specFocusSubset [⟨0, .fin 5⟩, ⟨1, .fin (-4)⟩, ⟨2, .fin 2⟩] (3/5) = [] ∧
      some [(⟨1, .fin (-4)⟩ : Row)] ≠ some ([] : List Row) := by
  refine ⟨?_, ?_, by simp⟩
  · norm_num [property_focus_feature_analysis, cutoffValue, cumulative, feature_data,
      List.insertionSort, List.orderedInsert, cumsum, cumsumFrom, pvAdd, pvGT, pvLT, pvMulQ,
      selectedIdxs, keyLE, rowBefore, pymax, Option.map, List.count, List.countP,
      List.countP.go]
  · norm_num [specFocusSubset, cutoffValue, cumulative, feature_data,
      List.insertionSort, List.orderedInsert, cumsum, cumsumFrom, pvAdd, pvGT, pvLT, pvMulQ,
      keyLE, rowBefore, pymax, Option.map, List.takeWhile]

/-- Witness for C1 at the `[40, 30, 20]`, threshold `1/2` input. -/
theorem C1_witness :
    ∃ res, property_focus_feature_analysis [⟨0, .fin 40⟩, ⟨1, .fin 30⟩, ⟨2, .fin 20⟩] (1/2)
        = some res ∧
      ∀ r : Row, (r ∈ res.focus ↔
        r ∈ specFocusSubset [⟨0, .fin 40⟩, ⟨1, .fin 30⟩, ⟨2, .fin 20⟩] (1/2)) :=
  (C1_focus_subset_spec [⟨0, .fin 40⟩, ⟨1, .fin 30⟩, ⟨2, .fin 20⟩] (1/2) (by simp)
    (by
      intro v hv
      simp only [List.map_cons, List.map_nil, List.mem_cons, List.not_mem_nil, or_false] at hv
      rcases hv with rfl | rfl | rfl
      · exact ⟨40, rfl, by norm_num⟩
      · exact ⟨30, rfl, by norm_num⟩
      · exact ⟨20, rfl, by norm_num⟩)
    (by simp)).1

/-- Claim C2, corrected: the reference value is
`max(np.cumsum(...)) * percent_line`, which differs from
`threshold_fraction × total` in general (see `C2_counterexample`); under
finite nonnegative metrics the maximal cumulative sum is the total, and the
cutoff reported by the analysis equals `threshold_fraction × total`. -/
theorem C2_cutoff_total (data : List Row) (t : ℚ) (hne : data ≠ [])
    (hfin : AllFinNonneg (data.map Row.metric)) :
    ∃ res, property_focus_feature_analysis data t = some res ∧
      res.cutoffLine = pvMulQ (totalMetric data) t :=
  ⟨_, pffa_eq_of_cutoff (cutoffValue_eq_total hne hfin t), rfl⟩

/-- Claim C2, counterexample to the original statement: for metrics
`[5, -4, 2]` the cutoff is `(7/2) = max cumsum × 1/2`, while
`threshold_fraction × total = 3/2`. -/
theorem C2_counterexample :
    cutoffValue [⟨0, .fin 5⟩, ⟨1, .fin (-4)⟩, ⟨2, .fin 2⟩] (1/2) = some (.fin (7/2)) ∧
      pvMulQ (totalMetric [⟨0, .fin 5⟩, ⟨1, .fin (-4)⟩, ⟨2, .fin 2⟩]) (1/2) = .fin (3/2) ∧
      PVal.fin (7/2) ≠ PVal.fin (3/2) := by
  refine ⟨?_, ?_, by norm_num⟩
  · norm_num [cutoffValue, cumulative, feature_data,
      List.insertionSort, List.orderedInsert, cumsum, cumsumFrom, pvAdd, pvGT, pvLT, pvMulQ,
      keyLE, rowBefore, pymax, Option.map]
  · norm_num [totalMetric, pvAdd, pvMulQ, List.foldl]

/-- Witness for C2 at a one-row table with metric `10`, threshold `1/2`. -/
theorem C2_witness :
    ∃ res, property_focus_feature_analysis [⟨0, .fin 10⟩] (1/2) = some res ∧
      res.cutoffLine = pvMulQ (totalMetric [⟨0, .fin 10⟩]) (1/2) :=
  C2_cutoff_total [⟨0, .fin 10⟩] (1/2) (by simp)
    (by
      intro v hv
      simp only [List.map_cons, List.map_nil, List.mem_cons, List.not_mem_nil, or_false] at hv
      rcases hv with rfl
      exact ⟨10, rfl, by norm_num⟩)

/-- Claim C3, corrected: the Focus Subset is NOT returned in metric-descending
order (see `C3_counterexample`); `.loc` with a boolean mask preserves the
original table order.  What does hold: the Focus Subset is a subsequence of
the input (original order); together with the excluded remainder it is a
permutation of the full input; and when the input is already descending by
metric (with finite nonnegative metrics) the concatenation reconstructs the
input exactly, which is then a descending ordering. -/
theorem C3_order_reconstruction (data : List Row) (t : ℚ) (hne : data ≠ [])
    (hnd : (data.map Row.idx).Nodup) :
    ∃ res, property_focus_feature_analysis data t = some res ∧
      res.focus.Sublist data ∧
      (res.focus ++ excludedRemainder data t).Perm data ∧
      (DescendingByMetric data → AllFinNonneg (data.map Row.metric) →
        res.focus ++ excludedRemainder data t = data) := by
  obtain ⟨cut, hcut⟩ := cutoffValue_isSome hne t
  refine ⟨_, pffa_eq_of_cutoff hcut, List.filter_sublist data, ?_, ?_⟩
  · exact List.filter_append_perm _ data
  · intro hdesc hfin
    have hfd : feature_data data = data := List.Sorted.insertionSort_eq hdesc
    obtain ⟨k, hk⟩ := selectedIdxs_take hne hfin t
    rw [hfd] at hk
    unfold excludedRemainder
    simp only [hk]
    rw [filter_take_idx data k hnd, filter_drop_idx data k hnd, List.take_append_drop]

/-- Claim C3, counterexample to the original statement: with input metrics
`[30, 40, 2]` and threshold `99/100` the top two rows are selected but are
returned in the original order `[30, 40]`, which is not descending by
metric. -/
theorem C3_counterexample :
    (property_focus_feature_analysis [⟨0, .fin 30⟩, ⟨1, .fin 40⟩, ⟨2, .fin 2⟩] (99/100)).map
        FocusResult.focus = some [⟨0, .fin 30⟩, ⟨1, .fin 40⟩] ∧
      ¬ DescendingByMetric [⟨0, .fin 30⟩, ⟨1, .fin 40⟩] := by
  constructor
  · norm_num [property_focus_feature_analysis, cutoffValue, cumulative, feature_data,
      List.insertionSort, List.orderedInsert, cumsum, cumsumFrom, pvAdd, pvGT, pvLT, pvMulQ,
      selectedIdxs, keyLE, rowBefore, pymax, Option.map, List.count, List.countP,
      List.countP.go]
  · intro h
    have h2 := (List.pairwise_cons.mp h).1 ⟨1, .fin 40⟩ (by simp)
    norm_num [rowBefore, keyLE] at h2

/-- Witness for C3 at a descending input `[40, 30, 20]`, threshold `1/2`. -/
theorem C3_witness :
    ∃ res, property_focus_feature_analysis [⟨0, .fin 40⟩, ⟨1, .fin 30⟩, ⟨2, .fin 20⟩] (1/2)
        = some res ∧
      res.focus ++ excludedRemainder [⟨0, .fin 40⟩, ⟨1, .fin 30⟩, ⟨2, .fin 20⟩] (1/2)
        = [⟨0, .fin 40⟩, ⟨1, .fin 30⟩, ⟨2, .fin 20⟩] := by
  obtain ⟨res, h1, _, _, h4⟩ := C3_order_reconstruction
    [⟨0, .fin 40⟩, ⟨1, .fin 30⟩, ⟨2, .fin 20⟩] (1/2) (by simp) (by simp)
  refine ⟨res, h1, h4 ?_ ?_⟩
  · unfold DescendingByMetric
    norm_num [List.pairwise_cons, rowBefore, keyLE]
  · intro v hv
    simp only [List.map_cons, List.map_nil, List.mem_cons, List.not_mem_nil, or_false] at hv
    rcases hv with rfl | rfl | rfl
    · exact ⟨40, rfl, by norm_num⟩
    · exact ⟨30, rfl, by norm_num⟩
    · exact ⟨20, rfl, by norm_num⟩

/-- Claim C4, corrected: monotonicity in the threshold fails for general
finite metrics (see `C4_counterexample`, a single negative metric); it holds
whenever all metrics are finite and nonnegative: for `s ≤ t` every row of the
Focus Subset at threshold `s` is in the Focus Subset at threshold `t`. -/
theorem C4_threshold_monotone (data : List Row) (s t : ℚ) (hst : s ≤ t) (hne : data ≠ [])
    (hfin : AllFinNonneg (data.map Row.metric)) :
    ∃ res1 res2, property_focus_feature_analysis data s = some res1 ∧
      property_focus_feature_analysis data t = some res2 ∧
      ∀ r ∈ res1.focus, r ∈ res2.focus := by
  have hcs := cutoffValue_sorted_sum hne hfin s
  have hct := cutoffValue_sorted_sum hne hfin t
  refine ⟨_, _, pffa_eq_of_cutoff hcs, pffa_eq_of_cutoff hct, ?_⟩
  intro r hr
  rw [List.mem_filter] at hr ⊢
  obtain ⟨hrd, hrs⟩ := hr
  rw [decide_eq_true_eq] at hrs
  refine ⟨hrd, ?_⟩
  rw [decide_eq_true_eq]
  exact selectedIdxs_mono (sorted_sum_nonneg hfin) hst hcs hct r.idx hrs

/-- Claim C4, counterexample to the original statement: a single record of
metric `-10` is selected at threshold `1/2` (cutoff `-5`) but not at
threshold `1` (cutoff `-10`), so raising the threshold shrank the subset. -/
theorem C4_counterexample :
    (1 : ℚ)/2 ≤ 1 ∧
      (property_focus_feature_analysis [⟨0, .fin (-10)⟩] (1/2)).map FocusResult.focus
        = some [⟨0, .fin (-10)⟩] ∧
      (property_focus_feature_analysis [⟨0, .fin (-10)⟩] 1).map FocusResult.focus
        = some [] ∧
      ¬ (∀ r ∈ ([⟨0, PVal.fin (-10)⟩] : List Row), r ∈ ([] : List Row)) := by
  refine ⟨by norm_num, ?_, ?_, fun h => (List.not_mem_nil _) (h ⟨0, .fin (-10)⟩ (by simp))⟩
  · norm_num [property_focus_feature_analysis, cutoffValue, cumulative, feature_data,
      List.insertionSort, List.orderedInsert, cumsum, cumsumFrom, pvAdd, pvGT, pvLT, pvMulQ,
      selectedIdxs, keyLE, rowBefore, pymax, Option.map, List.count, List.countP,
      List.countP.go]
  · norm_num [property_focus_feature_analysis, cutoffValue, cumulative, feature_data,
      List.insertionSort, List.orderedInsert, cumsum, cumsumFrom, pvAdd, pvGT, pvLT, pvMulQ,
      selectedIdxs, keyLE, rowBefore, pymax, Option.map, List.count, List.countP,
      List.countP.go]

/-- Witness for C4 at a one-row table with metric `1`, thresholds `1/2 ≤ 1`. -/
theorem C4_witness :
    ∃ res1 res2, property_focus_feature_analysis [⟨0, .fin 1⟩] (1/2) = some res1 ∧
      property_focus_feature_analysis [⟨0, .fin 1⟩] 1 = some res2 ∧
      ∀ r ∈ res1.focus, r ∈ res2.focus :=
  C4_threshold_monotone [⟨0, .fin 1⟩] (1/2) 1 (by norm_num) (by simp)
    (by
      intro v hv
      simp only [List.map_cons, List.map_nil, List.mem_cons, List.not_mem_nil, or_false] at hv
      rcases hv with rfl
      exact ⟨1, rfl, by norm_num⟩)

/-- Claim C5, confirmed (for label-unique nonempty inputs, the only ones on
which the function returns at all): the reported `percent_of_total` equals
the number of rows in the Focus Subset divided by the number of rows of the
table, times 100. -/
theorem C5_selected_fraction (data : List Row) (t : ℚ) (hne : data ≠ [])
    (hnd : (data.map Row.idx).Nodup) :
    ∃ res, property_focus_feature_analysis data t = some res ∧
      res.percent_of_total = ((res.focus.length : ℚ) / (data.length : ℚ)) * 100 := by
  obtain ⟨cut, hcut⟩ := cutoffValue_isSome hne t
  refine ⟨_, pffa_eq_of_cutoff hcut, ?_⟩
  have hflen : (data.filter (fun r => decide (r.idx ∈ selectedIdxs data t))).length
      = (selectedIdxs data t).length :=
    filter_mem_length data (selectedIdxs data t) hnd (selectedIdxs_nodup hnd t)
      (selectedIdxs_subset t)
  have hslen := selectedIdxs_length hcut
  have hmlen : ((cumulative data).map (fun c => pvLT c cut)).length = data.length := by
    rw [List.length_map, cumulative_length]
  rw [hflen, hslen, hmlen]

/-- Witness for C5 at the `[40, 30, 20]`, threshold `1/2` input. -/
theorem C5_witness :
    ∃ res, property_focus_feature_analysis [⟨0, .fin 40⟩, ⟨1, .fin 30⟩, ⟨2, .fin 20⟩] (1/2)
        = some res ∧
      res.percent_of_total
        = ((res.focus.length : ℚ) /
            (([⟨0, .fin 40⟩, ⟨1, .fin 30⟩, ⟨2, .fin 20⟩] : List Row).length : ℚ)) * 100 :=
  C5_selected_fraction [⟨0, .fin 40⟩, ⟨1, .fin 30⟩, ⟨2, .fin 20⟩] (1/2) (by simp) (by simp)

/-- Claim C6, corrected: the function performs no input validation at all.
The only input on which it fails is the empty collection, and that failure is
an unhandled `ValueError` raised by `max()` partway through the computation
(after sorting and plotting), not an upfront validation; every nonempty
input — including one with a non-finite (NaN) metric — produces a normal
result (see `C6_counterexample` for the silently degenerate NaN output). -/
theorem C6_failure_iff_empty (data : List Row) (t : ℚ) :
    property_focus_feature_analysis data t = none ↔ data = [] := by
  constructor
  · intro h
    by_contra hne
    obtain ⟨cut, hcut⟩ := cutoffValue_isSome hne t
    rw [pffa_eq_of_cutoff hcut] at h
    exact Option.noConfusion h
  · rintro rfl
    rfl

/-- Claim C6, counterexample to the original statement: a table containing a
NaN metric is not rejected; the analysis returns a silently degenerate result
(empty Focus Subset, 0 percent) instead of signalling a validation failure. -/
theorem C6_counterexample :
    property_focus_feature_analysis [⟨0, .fin 10⟩, ⟨1, .nan⟩, ⟨2, .fin 5⟩] (1/2)
        = some ⟨[], 0, .fin (15/2)⟩ ∧
      property_focus_feature_analysis [⟨0, .fin 10⟩, ⟨1, .nan⟩, ⟨2, .fin 5⟩] (1/2) ≠ none := by
  have h : property_focus_feature_analysis [⟨0, .fin 10⟩, ⟨1, .nan⟩, ⟨2, .fin 5⟩] (1/2)
      = some ⟨[], 0, .fin (15/2)⟩ := by
    norm_num [property_focus_feature_analysis, cutoffValue, cumulative, feature_data,
      List.insertionSort, List.orderedInsert, cumsum, cumsumFrom, pvAdd, pvGT, pvLT, pvMulQ,
      selectedIdxs, keyLE, rowBefore, pymax, Option.map, List.count, List.countP,
      List.countP.go]
  exact ⟨h, by rw [h]; simp⟩

/-- Claim C7, confirmed: the returned result of one invocation is a function
of the data, the feature metric and the threshold alone — it is unchanged
under any starting world state (figures, files, stdout), and a second
invocation after the first returns the identical result. -/
theorem C7_pure_deterministic (data : List Row) (t : ℚ) (save : Bool) (w v : World) :
    (runAnalysis data t save w).1 = (runAnalysis data t save v).1 ∧
      (runAnalysis data t save ((runAnalysis data t save w).2)).1
        = (runAnalysis data t save w).1 ∧
      (runAnalysis data t save w).1 = property_focus_feature_analysis data t :=
  ⟨rfl, rfl, rfl⟩

/-- Claim C8, confirmed: each derived metric column is the promised row-wise
combination of the paired current/potential columns — the energy-efficiency
difference is the absolute difference of the pair, the CO2 difference is
current minus potential, and the potential cost saved is the total current
cost minus the total potential cost over the three cost pairs. -/
theorem C8_derived_columns (df : List EpcRow) :
    get_potential_energy_efficiency_difference df
        = df.map (fun r => |r.current_energy_efficiency - r.potential_energy_efficiency|) ∧
      get_co2_emissions_potential_difference df
        = df.map (fun r => r.co2_emissions_current - r.co2_emissions_potential) ∧
      get_potential_cost_saved df
        = df.map (fun r =>
            (r.hot_water_cost_current + r.heating_cost_current + r.lighting_cost_current)
              - (r.hot_water_cost_potential + r.heating_cost_potential
                  + r.lighting_cost_potential)) := by
  refine ⟨?_, rfl, ?_⟩
  · unfold get_potential_energy_efficiency_difference
    exact List.map_congr_left (fun r _ => abs_sub_comm _ _)
  · unfold get_potential_cost_saved
    exact List.map_congr_left (fun r _ => by ring)

/-- Claim C9, confirmed: every entry of the energy-efficiency difference
column is nonnegative (it is an absolute value), while the CO2 and cost-saved
columns are signed and take negative values when the potential exceeds the
current value. -/
theorem C9_sign_invariants :
    (∀ df : List EpcRow, ∀ x ∈ get_potential_energy_efficiency_difference df, 0 ≤ x) ∧
      (∃ df : List EpcRow, ∃ x ∈ get_co2_emissions_potential_difference df, x < 0) ∧
      (∃ df : List EpcRow, ∃ x ∈ get_potential_cost_saved df, x < 0) := by
  refine ⟨?_, ?_, ?_⟩
  · intro df x hx
    unfold get_potential_energy_efficiency_difference at hx
    rw [List.mem_map] at hx
    obtain ⟨r, _, rfl⟩ := hx
    exact abs_nonneg _
  · refine ⟨[⟨0, 0, 1, 2, 0, 0, 0, 0, 0, 0⟩], -1, ?_, by norm_num⟩
    norm_num [get_co2_emissions_potential_difference]
  · refine ⟨[⟨0, 0, 0, 0, 0, 1, 0, 0, 0, 0⟩], -1, ?_, by norm_num⟩
    norm_num [get_potential_cost_saved]

/-- Witness for C9: the energy-efficiency difference of a row with current 10
and potential 52 is the nonnegative value 42. -/
theorem C9_witness : (0 : ℚ) ≤ 42 :=
  C9_sign_invariants.1 [⟨10, 52, 0, 0, 0, 0, 0, 0, 0, 0⟩] 42
    (by norm_num [get_potential_energy_efficiency_difference])

/-- Claim C10, confirmed: on a nonempty table whose metrics are all zero the
total and the cutoff are zero, the strict comparison `0 < 0` fails at every
position, and the analysis returns an empty Focus Subset with a reported
fraction of 0 percent. -/
theorem C10_zero_metrics (data : List Row) (t : ℚ) (hne : data ≠ [])
    (hz : ∀ r ∈ data, r.metric = .fin 0) :
    ∃ res, property_focus_feature_analysis data t = some res ∧
      res.focus = [] ∧ res.percent_of_total = 0 := by
  have hfin : AllFinNonneg (data.map Row.metric) := by
    intro v hv
    rw [List.mem_map] at hv
    obtain ⟨r, hr, rfl⟩ := hv
    exact ⟨0, hz r hr, le_refl 0⟩
  have hS : (((feature_data data).map Row.metric).map pvToQ).sum = 0 := by
    apply List.sum_eq_zero
    intro x hx
    rw [List.mem_map] at hx
    obtain ⟨v, hv, rfl⟩ := hx
    rw [List.mem_map] at hv
    obtain ⟨r, hr, rfl⟩ := hv
    rw [hz r ((feature_data_perm data).subset hr)]
    rfl
  have hcut0 : cutoffValue data t = some (.fin 0) := by
    rw [cutoffValue_sorted_sum hne hfin t, hS]
    norm_num
  have hmaskF : ∀ c ∈ cumulative data, pvLT c (.fin 0) = false := by
    intro c hc
    obtain ⟨q, hq, hq0⟩ := cumsumFrom_lb (allFinNonneg_sorted hfin) 0 c hc
    rw [hq]
    simp only [pvLT, decide_eq_false_iff_not]
    linarith
  refine ⟨_, pffa_eq_of_cutoff hcut0, ?_, ?_⟩
  · have hsel : selectedIdxs data t = [] := by
      simp only [selectedIdxs, hcut0]
      rw [List.filterMap_eq_nil_iff]
      intro p hp
      obtain ⟨r, c⟩ := p
      rw [hmaskF c (List.of_mem_zip hp).2]
      simp
    simp only [hsel]
    simp
  · have hcnt : ((cumulative data).map (fun c => pvLT c (.fin 0))).count true = 0 := by
      rw [List.count_eq_zero]
      intro hmem
      rw [List.mem_map] at hmem
      obtain ⟨c, hc, heq⟩ := hmem
      rw [hmaskF c hc] at heq
      exact Bool.noConfusion heq
    rw [hcnt]
    norm_num

/-- Witness for C10 at a two-row all-zero table, threshold `1/2`. -/
theorem C10_witness :
    ∃ res, property_focus_feature_analysis [⟨0, .fin 0⟩, ⟨1, .fin 0⟩] (1/2) = some res ∧
      res.focus = [] ∧ res.percent_of_total = 0 :=
  C10_zero_metrics [⟨0, .fin 0⟩, ⟨1, .fin 0⟩] (1/2) (by simp)
    (by
      intro r hr
      simp only [List.mem_cons, List.not_mem_nil, or_false] at hr
      rcases hr with rfl | rfl
      · rfl
      · rfl)
